import Mathlib

/-!
Verification development for the strict market matcher (`strict_matcher.py`).

Modeling conventions:
- Python `str` is modeled by Lean `String` (a structure over `List Char`); the
  inputs of interest are ASCII, so `Char.toLower` models `str.lower`.
- Python `set` is modeled by `Finset String` (resp. `Finset ℕ`); set truthiness
  is nonemptiness.
- Python floats are modeled by exact rationals `ℚ`.  Constant literals such as
  `0.3`, `0.2` are modeled by the exact rationals `3/10`, `1/5`.
- Rational arithmetic is written with `mkRat`-based helper functions (`qAdd`,
  `qSub`, `qMul`, `qAbs`, `qMax`, `qDivN`) which are extensionally equal to the
  ordinary field operations (bridging lemmas `qAdd_eq_add` etc. below) but
  reduce inside the kernel, so that concrete runs can be checked by `decide`.
- The regular-expression scans of the source are modeled by dedicated
  character-list scanners implementing the leftmost, non-overlapping,
  greedy-with-backtracking semantics of `re.findall` for the concrete patterns
  appearing in the source; the relevant backtracking cases are worked out in
  comments next to each scanner.
-/

/-- Python `\s` character class (space, tab, newline, carriage return,
vertical tab, form feed). -/
def pySpace (c : Char) : Bool :=
  c == ' ' || c == '\t' || c == '\n' || c == '\r' || c == Char.ofNat 11 || c == Char.ofNat 12

/-- Python `\w` character class restricted to ASCII (letters, digits, underscore). -/
def wordChar (c : Char) : Bool := c.isAlphanum || c == '_'

/-- Model of `str.lower` (ASCII case folding). -/
def lowerStr (s : String) : String := String.mk (s.data.map Char.toLower)

/-- Model of `str.strip` : remove leading and trailing whitespace. -/
def stripStr (s : String) : String :=
  String.mk (((s.data.dropWhile pySpace).reverse.dropWhile pySpace).reverse)

/-- Substring occurrence on character lists: does `sub` occur contiguously? -/
def listContainsSub (sub : List Char) : List Char → Bool
  | [] => sub.isEmpty
  | c :: t => sub.isPrefixOf (c :: t) || listContainsSub sub t

/-- Model of the Python `in` operator on strings (substring containment). -/
def strContains (s sub : String) : Bool := listContainsSub sub.data s.data

/-- Model of `str.replace pat rep` : replace every leftmost, non-overlapping
occurrence of the (nonempty) pattern by the replacement.  `fuel` bounds the
recursion (initialized to `length + 1`, enough since every step consumes at
least one character); the structural recursion on `fuel` keeps the function
kernel-reducible. -/
def replaceAllWithAux (pat rep : List Char) : ℕ → List Char → List Char
  | 0, _ => []
  | _ + 1, [] => []
  | fuel + 1, c :: t =>
    if pat ≠ [] ∧ pat.isPrefixOf (c :: t) then
      rep ++ replaceAllWithAux pat rep fuel ((c :: t).drop pat.length)
    else c :: replaceAllWithAux pat rep fuel t

/-- Replacement on strings (`str.replace`). -/
def strReplace (s pat rep : String) : String :=
  String.mk (replaceAllWithAux pat.data rep.data (s.data.length + 1) s.data)

/-- Removal on strings (`str.replace pat ""`). -/
def strRemoveAll (s pat : String) : String :=
  String.mk (replaceAllWithAux pat.data [] (s.data.length + 1) s.data)

/-- Digit-list to natural number (most significant first). -/
def digitsToNat (l : List Char) : ℕ :=
  l.foldl (fun acc c => acc * 10 + (c.toNat - 48)) 0

/-- Model of Python `int(s)` on the token shapes that can reach it here: a
nonempty all-digit string parses, anything else raises (returns `none`). -/
def pyIntOfString (s : String) : Option ℤ :=
  if s.data ≠ [] ∧ s.data.all Char.isDigit then some (digitsToNat s.data) else none

/-- Model of Python `float(s)` on the token shapes that can reach it here:
`digits` or `digits.digits` (possibly with commas already removed by the
caller); the exact rational value is returned, anything else raises. -/
def pyFloatOfString (s : String) : Option ℚ :=
  let l := s.data
  let intPart := l.takeWhile Char.isDigit
  let rest := l.dropWhile Char.isDigit
  match rest with
  | [] => if intPart ≠ [] then some (mkRat (digitsToNat intPart) 1) else none
  | c :: frac =>
    if c = '.' ∧ intPart ≠ [] ∧ frac ≠ [] ∧ frac.all Char.isDigit then
      some (mkRat (digitsToNat (intPart ++ frac)) (10 ^ frac.length))
    else none

/-! Kernel-reducible rational arithmetic.  `mkRat` normalizes, so each helper
below is extensionally the ordinary field operation (bridging lemmas follow). -/

/-- Exact rational addition via `mkRat`. -/
def qAdd (a b : ℚ) : ℚ := mkRat (a.num * b.den + b.num * a.den) (a.den * b.den)

/-- Exact rational subtraction via `mkRat`. -/
def qSub (a b : ℚ) : ℚ := mkRat (a.num * b.den - b.num * a.den) (a.den * b.den)

/-- Exact rational multiplication via `mkRat`. -/
def qMul (a b : ℚ) : ℚ := mkRat (a.num * b.num) (a.den * b.den)

/-- Model of Python `abs` on rationals. -/
def qAbs (a : ℚ) : ℚ := if a < 0 then mkRat (-a.num) a.den else a

/-- Model of Python `max` on rationals. -/
def qMax (a b : ℚ) : ℚ := if a ≤ b then b else a

/-- Division by a natural number via `mkRat`. -/
def qDivN (a : ℚ) (n : ℕ) : ℚ := mkRat a.num (a.den * n)

/-! Scanners modeling the `re.findall` calls of the source.  Each scanner
walks the character list left to right; `prev` is the character preceding the
current position (for word boundaries `\b`), `fuel` bounds the recursion and
is initialized to `length + 1`, which suffices because every recursive call
consumes at least one character. -/

/-- Word boundary `\b` holds before a word character `c` when the previous
character is absent or not a word character. -/
def wbBefore (prev : Option Char) (c : Char) : Bool :=
  wordChar c && (match prev with | none => true | some q => !wordChar q)

/-- Word boundary `\b` holds after a word character when the remainder is empty
or starts with a non-word character. -/
def wbAfterList (l : List Char) : Bool :=
  match l with | [] => true | d :: _ => !wordChar d

/-- Greedy `(?:,\d+)*` : the list of consumed comma groups (each `, digits`)
and the remainder.  A failing iteration (comma not followed by a digit) simply
ends the star; later components of the concrete patterns using this are all
optional, so the regex engine never backtracks into a successful iteration.
`fuel` bounds the recursion as in the scanners below. -/
def takeCommaGroupsAux : ℕ → List Char → (List (List Char) × List Char)
  | 0, l => ([], l)
  | fuel + 1, l =>
    match l with
    | ',' :: r =>
      let ds := r.takeWhile Char.isDigit
      if ds.isEmpty then ([], ',' :: r)
      else
        let (gs, r2) := takeCommaGroupsAux fuel (r.dropWhile Char.isDigit)
        ((',' :: ds) :: gs, r2)
    | _ => ([], l)

def takeCommaGroups (l : List Char) : (List (List Char) × List Char) :=
  takeCommaGroupsAux (l.length + 1) l

/-- Greedy `(?:\.\d+)?` : the consumed fraction (`.` followed by at least one
digit) if present, and the remainder. -/
def takeFracPart (l : List Char) : (List Char × List Char) :=
  match l with
  | '.' :: r =>
    let ds := r.takeWhile Char.isDigit
    if ds.isEmpty then ([], l) else ('.' :: ds, r.dropWhile Char.isDigit)
  | _ => ([], l)

/-- Scanner for `(\d+)\s*bps?` (no word boundaries; used on the lowered texts
inside `semantic_similarity_check`).  At a digit, `\d+` takes the maximal run:
giving back digits never helps, because the next character would then be a
digit, which matches neither `\s` nor `b`; likewise `\s*` is safe to take
greedily because a given-back whitespace character is not `b`.  A failed
attempt therefore resumes right after the digit run, and a successful match
resumes after the consumed `bp`/`bps`. -/
def findBpsGroupsAux : ℕ → List Char → List String
  | 0, _ => []
  | _ + 1, [] => []
  | fuel + 1, c :: rest =>
    if c.isDigit then
      let ds := (c :: rest).takeWhile Char.isDigit
      let r1 := rest.dropWhile Char.isDigit
      let r2 := r1.dropWhile pySpace
      match r2 with
      | 'b' :: 'p' :: 's' :: r => String.mk ds :: findBpsGroupsAux fuel r
      | 'b' :: 'p' :: r => String.mk ds :: findBpsGroupsAux fuel r
      | _ => findBpsGroupsAux fuel r1
    else findBpsGroupsAux fuel rest

/-- `re.findall(r'(\d+)\s*bps?', s)` for the semantic check. -/
def findBpsGroups (s : String) : List String :=
  findBpsGroupsAux (s.data.length + 1) s.data

/-- Scanner for `\b(202[0-9])\b` (years). -/
def findYearsAux : ℕ → Option Char → List Char → List String
  | 0, _, _ => []
  | _ + 1, _, [] => []
  | fuel + 1, prev, c :: rest =>
    if wbBefore prev c ∧ (c :: rest).take 3 = ['2', '0', '2'] then
      match rest.drop 2 with
      | d :: r =>
        if d.isDigit ∧ wbAfterList r then
          String.mk ['2', '0', '2', d] :: findYearsAux fuel (some d) r
        else findYearsAux fuel (some c) rest
      | [] => findYearsAux fuel (some c) rest
    else findYearsAux fuel (some c) rest

def findYears (s : String) : List String := findYearsAux (s.data.length + 1) none s.data

/-- Scanner for `\b(\d+(?:\.\d+)?)\s*%` (percentages).  `\d+` and the optional
fraction are taken greedily; giving back digits never helps because the next
character would then be a digit (not `\s` or `%`), and dropping the fraction
leaves `.` at the head, which is not `%` either, so a failed attempt resumes
right after the integer digit run (later starts inside the fraction are probed
by the continued scan, as the regex engine does). -/
def findPctsAux : ℕ → Option Char → List Char → List String
  | 0, _, _ => []
  | _ + 1, _, [] => []
  | fuel + 1, prev, c :: rest =>
    if c.isDigit ∧ wbBefore prev c then
      let ds := (c :: rest).takeWhile Char.isDigit
      let r1 := rest.dropWhile Char.isDigit
      let (frac, r2) := takeFracPart r1
      let r3 := r2.dropWhile pySpace
      match r3 with
      | '%' :: r => String.mk (ds ++ frac) :: findPctsAux fuel (some '%') r
      | _ => findPctsAux fuel (some (ds.getLastD c)) r1
    else findPctsAux fuel (some c) rest

def findPcts (s : String) : List String := findPctsAux (s.data.length + 1) none s.data

/-- Scanner for `\$(\d+(?:,\d+)*(?:\.\d+)?)\s*([kmb]?)` (dollar amounts,
applied to the lowered text).  There are no word boundaries and everything
after `\$\d` is optional or a star, so a match succeeds as soon as a `$` is
followed by a digit, with all parts taken greedily; otherwise the scan moves
on.  Returns (amount capture, suffix capture) pairs. -/
def findDollarsAux : ℕ → List Char → List (String × String)
  | 0, _ => []
  | _ + 1, [] => []
  | fuel + 1, '$' :: rest =>
    match rest with
    | c :: _ =>
      if c.isDigit then
        let ds := rest.takeWhile Char.isDigit
        let r1 := rest.dropWhile Char.isDigit
        let (gs, r2) := takeCommaGroups r1
        let (frac, r3) := takeFracPart r2
        let amt := String.mk (ds ++ gs.flatten ++ frac)
        let r4 := r3.dropWhile pySpace
        match r4 with
        | k :: r =>
          if k = 'k' ∨ k = 'm' ∨ k = 'b' then (amt, String.mk [k]) :: findDollarsAux fuel r
          else (amt, "") :: findDollarsAux fuel r4
        | [] => [(amt, "")]
      else findDollarsAux fuel rest
    | [] => []
  | fuel + 1, _ :: rest => findDollarsAux fuel rest

def findDollars (s : String) : List (String × String) :=
  findDollarsAux (s.data.length + 1) s.data

/-- Scanner for `\b(\d+)\s*bps?\b` (basis points, applied to the lowered
text).  Like `findBpsGroupsAux` but with word boundaries: the greedy `s?` is
tried first; if `bps` is followed by a word character then so is `bp` (namely
by `s`), hence both alternatives of the backtrack fail together and the
attempt fails. -/
def findBpsWBAux : ℕ → Option Char → List Char → List String
  | 0, _, _ => []
  | _ + 1, _, [] => []
  | fuel + 1, prev, c :: rest =>
    if c.isDigit ∧ wbBefore prev c then
      let ds := (c :: rest).takeWhile Char.isDigit
      let r1 := rest.dropWhile Char.isDigit
      let r2 := r1.dropWhile pySpace
      match r2 with
      | 'b' :: 'p' :: 's' :: r =>
        if wbAfterList r then String.mk ds :: findBpsWBAux fuel (some 's') r
        else findBpsWBAux fuel (some (ds.getLastD c)) r1
      | 'b' :: 'p' :: r =>
        if wbAfterList r then String.mk ds :: findBpsWBAux fuel (some 'p') r
        else findBpsWBAux fuel (some (ds.getLastD c)) r1
      | _ => findBpsWBAux fuel (some (ds.getLastD c)) r1
    else findBpsWBAux fuel (some c) rest

def findBpsWB (s : String) : List String := findBpsWBAux (s.data.length + 1) none s.data

/-- Scanner for `\b(\d+(?:,\d+)*(?:\.\d+)?)\b` (generic numeric literals).
Greedy matching takes the maximal digit run, then maximal comma groups, then
the optional fraction; the trailing `\b` requires a non-word continuation.
Backtracking analysis: shortening any digit run leaves a digit as the next
character, so `\b` still fails; the productive backtracks are dropping the
fraction (the continuation then starts with `.`, a non-word character, so `\b`
holds) and, when there is no fraction, dropping the last comma group (the
continuation then starts with `,`).  With neither available the attempt fails
and the scan resumes after the digit run. -/
def findNumsAux : ℕ → Option Char → List Char → List String
  | 0, _, _ => []
  | _ + 1, _, [] => []
  | fuel + 1, prev, c :: rest =>
    if c.isDigit ∧ wbBefore prev c then
      let ds := (c :: rest).takeWhile Char.isDigit
      let r1 := rest.dropWhile Char.isDigit
      let (gs, r2) := takeCommaGroups r1
      let (frac, r3) := takeFracPart r2
      if frac ≠ [] then
        if wbAfterList r3 then
          String.mk (ds ++ gs.flatten ++ frac) :: findNumsAux fuel (some (frac.getLastD c)) r3
        else
          String.mk (ds ++ gs.flatten) :: findNumsAux fuel (some ((ds ++ gs.flatten).getLastD c)) r2
      else
        if wbAfterList r2 then
          String.mk (ds ++ gs.flatten) :: findNumsAux fuel (some ((ds ++ gs.flatten).getLastD c)) r2
        else
          match gs with
          | [] => findNumsAux fuel (some (ds.getLastD c)) r1
          | _ =>
            String.mk (ds ++ (gs.dropLast).flatten) ::
              findNumsAux fuel (some ((ds ++ (gs.dropLast).flatten).getLastD c)) ((gs.getLastD []) ++ r2)
    else findNumsAux fuel (some c) rest

def findNums (s : String) : List String := findNumsAux (s.data.length + 1) none s.data

/-! Entity extraction (`extract_entities_strict`).  Each source pattern is
word-boundary anchored; patterns of the form `\b(first\s+)?last\b` are
equivalent, as a search predicate, to `\blast\b` (if the long form matches
then the short form matches at the start of `last`, and conversely), so they
are recorded by their mandatory word.  Alternation patterns (`usa`) are split
into one table entry per alternative with the same tag, which yields the same
entity set.  Negative lookaheads `(?!\s*(w1|w2))` and `(?!\s*\w)` test the
continuation after the keyword; since the banned words start with non-space
characters, the greedy `\s*` inside the lookahead is equivalent to dropping
the maximal whitespace run. -/

inductive EPat where
  | word (kw : String)
  | pairWS (k1 k2 : String)
  | wordNeg (kw : String) (negs : List String)
  | wordNegW (kw : String)
deriving DecidableEq

/-- The lookahead `\s*(n1|n2|...)` as a test on the continuation. -/
def lookaheadAlt (negs : List String) (l : List Char) : Bool :=
  negs.any fun n => n.data.isPrefixOf (l.dropWhile pySpace)

/-- The lookahead `\s*\w` as a test on the continuation. -/
def lookaheadWord (l : List Char) : Bool :=
  match l.dropWhile pySpace with | [] => false | d :: _ => wordChar d

/-- Does the pattern occur somewhere in the character list?  `prev` is the
character before the current position, for the leading word boundary. -/
def epatOccAux (p : EPat) : Option Char → List Char → Bool
  | _, [] => false
  | prev, c :: rest =>
    (match p with
     | .word kw =>
       wbBefore prev c && kw.data.isPrefixOf (c :: rest) &&
         wbAfterList ((c :: rest).drop kw.data.length)
     | .pairWS k1 k2 =>
       wbBefore prev c && k1.data.isPrefixOf (c :: rest) &&
         (let r1 := (c :: rest).drop k1.data.length
          let r2 := r1.dropWhile pySpace
          !(r1.takeWhile pySpace).isEmpty && k2.data.isPrefixOf r2 &&
            wbAfterList (r2.drop k2.data.length))
     | .wordNeg kw negs =>
       wbBefore prev c && kw.data.isPrefixOf (c :: rest) &&
         (let r := (c :: rest).drop kw.data.length
          wbAfterList r && !(lookaheadAlt negs r))
     | .wordNegW kw =>
       wbBefore prev c && kw.data.isPrefixOf (c :: rest) &&
         (let r := (c :: rest).drop kw.data.length
          wbAfterList r && !(lookaheadWord r))) ||
    epatOccAux p (some c) rest

def epatOcc (p : EPat) (l : List Char) : Bool := epatOccAux p none l

/-- The curated entity table of the source, in source order (people, crypto,
organizations, places, events). -/
def entity_patterns : List (String × EPat) :=
  [("trump", .word "trump"),
   ("biden", .word "biden"),
   ("harris", .word "harris"),
   ("musk", .word "musk"),
   ("putin", .word "putin"),
   ("xi jinping", .pairWS "xi" "jinping"),
   ("taylor swift", .pairWS "taylor" "swift"),
   ("netanyahu", .word "netanyahu"),
   ("bitcoin", .word "bitcoin"),
   ("btc", .word "btc"),
   ("ethereum", .word "ethereum"),
   ("eth", .wordNeg "eth" ["flipped", "flip"]),
   ("solana", .word "solana"),
   ("sol", .wordNegW "sol"),
   ("dogecoin", .word "dogecoin"),
   ("doge", .word "doge"),
   ("federal reserve", .pairWS "federal" "reserve"),
   ("fed", .wordNeg "fed" ["cup", "ex"]),
   ("openai", .word "openai"),
   ("tesla", .word "tesla"),
   ("apple", .wordNeg "apple" ["music", "tv"]),
   ("microsoft", .word "microsoft"),
   ("google", .word "google"),
   ("meta", .wordNegW "meta"),
   ("netflix", .word "netflix"),
   ("usa", .word "usa"),
   ("usa", .pairWS "united" "states"),
   ("usa", .word "america"),
   ("china", .word "china"),
   ("russia", .word "russia"),
   ("ukraine", .word "ukraine"),
   ("israel", .word "israel"),
   ("iran", .word "iran"),
   ("germany", .word "germany"),
   ("france", .word "france"),
   ("netherlands", .word "netherlands"),
   ("norway", .word "norway"),
   ("election", .word "election"),
   ("recession", .word "recession"),
   ("inflation", .word "inflation"),
   ("unemployment", .word "unemployment"),
   ("interest rate", .pairWS "interest" "rate")]

/-- `extract_entities_strict` of the source: every pattern is tested
independently against the lowered text; all matching tags are collected. -/
def extract_entities_strict (text : String) : Finset String :=
  ((entity_patterns.filter fun q => epatOcc q.2 (lowerStr text).data).map Prod.fst).toFinset

/-- One keyword of a classifier alternation `\b(kw1|kw2|...)\b` occurs
(word-boundary semantics; keywords are literal, including inner spaces). -/
def kwOcc (kw : String) (l : List Char) : Bool := epatOcc (.word kw) l

def politics_kws : List String :=
  ["election", "president", "presidential", "trump", "biden", "harris", "mayor",
   "governor", "senate", "congress", "vote", "political", "party", "democrat",
   "republican", "prime minister"]

def macro_kws : List String :=
  ["federal reserve", "fomc", "fed", "interest rate", "inflation", "unemployment",
   "gdp", "recession", "monetary policy", "basis points", "bps"]

def crypto_kws : List String :=
  ["bitcoin", "btc", "ethereum", "eth", "crypto", "blockchain", "solana", "sol",
   "dogecoin", "doge", "defi", "nft"]

def finance_kws : List String :=
  ["s&p", "spx", "nasdaq", "dow", "stock market", "index", "tesla", "apple",
   "microsoft", "amazon", "earnings", "revenue", "market cap"]

def tech_kws : List String :=
  ["openai", "gpt", "ai", "artificial intelligence", "iphone", "android", "app",
   "software", "tech", "google", "apple", "microsoft"]

def sports_kws : List String :=
  ["nfl", "nba", "mlb", "nhl", "soccer", "football", "basketball", "baseball",
   "hockey", "championship", "super bowl", "world cup", "olympics"]

def entertainment_kws : List String :=
  ["taylor swift", "album", "billboard", "rotten tomatoes", "movie", "oscar",
   "grammy", "netflix", "box office", "streaming"]

def ruleMatch (kws : List String) (l : List Char) : Bool := kws.any fun k => kwOcc k l

/-- `classify_domain_strict` of the source: seven ordered keyword rules on the
lowered text, first match wins, default `other`. -/
def classify_domain_strict (text : String) : String :=
  let t := (lowerStr text).data
  if ruleMatch politics_kws t then "politics"
  else if ruleMatch macro_kws t then "macro"
  else if ruleMatch crypto_kws t then "crypto"
  else if ruleMatch finance_kws t then "finance"
  else if ruleMatch tech_kws t then "tech"
  else if ruleMatch sports_kws t then "sports"
  else if ruleMatch entertainment_kws t then "entertainment"
  else "other"

/-- `extract_numbers_strict` of the source: years, percentages, dollar amounts
(reconstructed with the `$` prefix and suffix), basis points (reconstructed as
`<n>bps`), and generic numeric literals of value at least 10. -/
def extract_numbers_strict (text : String) : Finset String :=
  let years := findYears text
  let pcts := findPcts text
  let dollars := (findDollars (lowerStr text)).map fun ab => "$" ++ ab.1 ++ ab.2
  let bps := (findBpsWB (lowerStr text)).map fun b => b ++ "bps"
  let prices := (findNums text).filter fun p =>
    match pyFloatOfString (strRemoveAll p ",") with
    | some v => decide ((10 : ℚ) ≤ v)
    | none => false
  (years ++ pcts ++ dollars ++ bps ++ prices).toFinset

/-! Data model: the processed per-market dictionaries and the match
dictionaries of the source. -/

/-- A processed market record (the dictionaries built by
`load_and_preprocess`).  `end_dt` is a timestamp in seconds (exact rational);
`none` models an absent or unparsable end date. -/
structure Record where
  idx : ℕ
  id : String
  title : String
  text : String
  text_norm : String
  end_dt : Option ℚ
  numbers : Finset String
  entities : Finset String
  domain : String
  bid : Option ℚ := none
  ask : Option ℚ := none
deriving DecidableEq

/-- A match dictionary as appended by `find_matches`. -/
structure MatchRow where
  kalshi_idx : ℕ
  poly_idx : ℕ
  kalshi_id : String
  poly_id : String
  kalshi_title : String
  poly_title : String
  score : ℚ
  domain : String
  time_diff_hours : Option ℚ
  entity_overlap : ℚ
  number_overlap : ℚ
  shared_entities : List String
  shared_numbers : List String
deriving DecidableEq

/-- The antonym table of `semantic_similarity_check`, in source order. -/
def opposite_pairs : List (String × String) :=
  [("above", "below"), ("over", "under"), ("more than", "less than"),
   ("increase", "decrease"), ("rise", "fall"), ("up", "down"),
   ("win", "lose"), ("outperform", "underperform"), ("cut", "hike"),
   ("emergency", "scheduled")]

/-- `semantic_similarity_check` of the source: reject when some antonym pair
is split across the two lowered texts (plain substring containment), or when
both texts carry basis-point quantities whose digit strings are disjoint. -/
def semantic_similarity_check (k_text p_text : String) : Bool :=
  if opposite_pairs.any (fun w =>
      (strContains (lowerStr k_text) w.1 && strContains (lowerStr p_text) w.2) ||
      (strContains (lowerStr k_text) w.2 && strContains (lowerStr p_text) w.1)) then false
  else if findBpsGroups (lowerStr k_text) ≠ [] ∧ findBpsGroups (lowerStr p_text) ≠ [] ∧
      (findBpsGroups (lowerStr k_text)).toFinset ∩ (findBpsGroups (lowerStr p_text)).toFinset = ∅
    then false
  else true

/-- Jaccard-style overlap used twice by the source
(`len(i)/len(u) if u else 0`); `mkRat _ 0 = 0` supplies the empty-union
convention exactly. -/
def overlap_ratio (a b : Finset String) : ℚ := mkRat ((a ∩ b).card : ℤ) ((a ∪ b).card)

def political_entities : Finset String := {"trump", "biden", "harris", "election", "president"}

def crypto_entities : Finset String :=
  {"bitcoin", "btc", "ethereum", "eth", "solana", "sol", "dogecoin", "doge"}

def macro_entities : Finset String :=
  {"federal reserve", "fed", "interest rate", "unemployment", "inflation"}

/-- Re-parsing of a numeric token inside the numeric-closeness rule: tokens
containing `bps` go through `int(num.replace('bps',''))`, tokens containing
`%` through `float(num.replace('%',''))`, all other shapes are skipped; a
parse failure is skipped too (`try`/`except`). -/
def parseNumToken (num : String) : Option ℚ :=
  if strContains num "bps" then
    (pyIntOfString (strRemoveAll num "bps")).map fun z => mkRat z 1
  else if strContains num "%" then pyFloatOfString (strRemoveAll num "%")
  else none

/-- The pairwise closeness test on two re-parsed values:
`abs(k_val - p_val) <= max(50, k_val * 0.2)`; unparsed tokens never pair. -/
def closeTest (oa ob : Option ℚ) : Bool :=
  match oa, ob with
  | some a, some b => decide (qAbs (qSub a b) ≤ qMax 50 (qMul a (mkRat 1 5)))
  | _, _ => false

/-- The close-pair search of the numeric-closeness rule: some pair of
re-parsed values from the two token sets is close.  (The source builds the
two value sets `k_vals`, `p_vals` first and then searches all pairs; the
bounded existential is the same predicate.) -/
def numbers_close (k_numbers p_numbers : Finset String) : Bool :=
  decide (∃ ta ∈ k_numbers, ∃ tb ∈ p_numbers,
    closeTest (parseNumToken ta) (parseNumToken tb) = true)

/-- The numeric-closeness block of `is_high_quality_match` (lines 362-399):
trivially satisfied unless both sides have numeric tokens with no verbatim
intersection, in which case it requires a close re-parsed pair or
`score >= 95`. -/
def numeric_closeness_gate (k p : Record) (score : ℚ) : Bool :=
  if k.numbers ≠ ∅ ∧ p.numbers ≠ ∅ then
    if k.numbers ∩ p.numbers = ∅ then
      if numbers_close k.numbers p.numbers = false ∧ score < 95 then false else true
    else true
  else true

/-- `is_high_quality_match` of the source.  The Python `if/elif` chain over
`k['domain']` is rendered as a nested conditional; the domains are mutually
exclusive string values, so the meaning is identical. -/
def is_high_quality_match (k p : Record) (score : ℚ) : Bool :=
  if score < 80 then false
  else if k.entities ∩ p.entities = ∅ then false
  else if overlap_ratio k.entities p.entities < mkRat 3 10 then false
  else if semantic_similarity_check k.text p.text = false then false
  else if k.domain = "politics" then
    if k.entities ∩ p.entities ∩ political_entities = ∅ then false
    else numeric_closeness_gate k p score
  else if k.domain = "crypto" then
    if k.entities ∩ p.entities ∩ crypto_entities = ∅ then false
    else numeric_closeness_gate k p score
  else if k.domain = "macro" then
    if k.entities ∩ p.entities ∩ macro_entities = ∅ then false
    else numeric_closeness_gate k p score
  else numeric_closeness_gate k p score

/-- Mathematical floor of a rational, computably (`Int.fdiv` is floor
division). -/
def qFloorZ (q : ℚ) : ℤ := Int.fdiv q.num q.den

/-- Round half to even, the rounding mode of Python `round` (idealized to
exact rationals). -/
def roundHalfEven (q : ℚ) : ℤ :=
  if qSub q (mkRat (qFloorZ q) 1) < mkRat 1 2 then qFloorZ q
  else if mkRat 1 2 < qSub q (mkRat (qFloorZ q) 1) then qFloorZ q + 1
  else if qFloorZ q % 2 = 0 then qFloorZ q else qFloorZ q + 1

def qMulN (q : ℚ) (n : ℕ) : ℚ := mkRat (q.num * n) q.den

/-- Model of Python `round(q, nd)` on exact rationals. -/
def pyRound (nd : ℕ) (q : ℚ) : ℚ := mkRat (roundHalfEven (qMulN q (10 ^ nd))) (10 ^ nd)

/-- The match dictionary built at the end of the `find_matches` inner loop. -/
def mkMatchRow (k p : Record) (score : ℚ) (td : Option ℚ) : MatchRow :=
  { kalshi_idx := k.idx, poly_idx := p.idx, kalshi_id := k.id, poly_id := p.id,
    kalshi_title := k.title, poly_title := p.title, score := score,
    domain := k.domain, time_diff_hours := td,
    entity_overlap := pyRound 3 (overlap_ratio k.entities p.entities),
    number_overlap := pyRound 3 (overlap_ratio k.numbers p.numbers),
    shared_entities := (k.entities ∩ p.entities).sort (· ≤ ·),
    shared_numbers := (k.numbers ∩ p.numbers).sort (· ≤ ·) }

/-- The per-candidate tail of the `find_matches` loop (lines 461-498): the
quality gate, the final time check, and the construction of the emitted match
dictionary.  `none` means the pair is dropped.  The emitted
`time_diff_hours` reflects `round(time_diff, 1) if time_diff else None`: the
Python truthiness test maps both `None` and `0.0` to `None`. -/
def processPair (k p : Record) (score : ℚ) (max_time_diff_hours : ℚ) : Option MatchRow :=
  if is_high_quality_match k p score = false then none
  else
    match k.end_dt, p.end_dt with
    | some a, some b =>
      if max_time_diff_hours < qDivN (qAbs (qSub a b)) 3600 then none
      else some (mkMatchRow k p score
        (if qDivN (qAbs (qSub a b)) 3600 = 0 then none
         else some (pyRound 1 (qDivN (qAbs (qSub a b)) 3600))))
    | _, _ => some (mkMatchRow k p score none)

/-- The composite ranking key of `deduplicate_matches`
(`m['score'] + m['entity_overlap']*30 + m['number_overlap']*20`). -/
def quality_score (m : MatchRow) : ℚ :=
  qAdd (qAdd m.score (qMul m.entity_overlap 30)) (qMul m.number_overlap 20)

/-- Stable insertion into a list sorted descending by `quality_score`: the new
element goes before the first element of smaller-or-equal key, so an earlier
original element precedes equal-key later ones. -/
def insertDescByQuality (m : MatchRow) : List MatchRow → List MatchRow
  | [] => [m]
  | x :: xs =>
    if quality_score m < quality_score x then x :: insertDescByQuality m xs
    else m :: x :: xs

/-- The stable descending sort `matches.sort(key=quality_score, reverse=True)`.
Python's sort is stable also under `reverse=True`; a stable sort is unique as
a function of the key order, so insertion sort is an exact model. -/
def sortDescByQuality : List MatchRow → List MatchRow
  | [] => []
  | m :: rest => insertDescByQuality m (sortDescByQuality rest)

/-- The greedy walk of `deduplicate_matches` with its two consumed-index
sets. -/
def dedupGo : List MatchRow → Finset ℕ → Finset ℕ → List MatchRow
  | [], _, _ => []
  | m :: rest, usedK, usedP =>
    if m.kalshi_idx ∉ usedK ∧ m.poly_idx ∉ usedP then
      m :: dedupGo rest (insert m.kalshi_idx usedK) (insert m.poly_idx usedP)
    else dedupGo rest usedK usedP

/-- `deduplicate_matches` of the source. -/
def deduplicate_matches (ms : List MatchRow) : List MatchRow :=
  dedupGo (sortDescByQuality ms) ∅ ∅

/-- The persisted output document of `save_matches`; `generated_at` is the
wall-clock timestamp (`datetime.now`), passed in as a parameter since it is
the one run-dependent input. -/
structure OutputDoc where
  generated_at : String
  total_matches : ℕ
  min_text_similarity : ℚ
  min_entity_overlap_ratio : ℚ
  strict_entity_matching : Bool
  semantic_opposite_filtering : Bool
  domain_exact_match : Bool
  max_time_diff_hours : ℚ
  matches_out : List MatchRow
deriving DecidableEq

/-- `save_matches` of the source. -/
def save_matches (generated_at : String) (ms : List MatchRow) : OutputDoc :=
  { generated_at := generated_at, total_matches := ms.length,
    min_text_similarity := 80, min_entity_overlap_ratio := mkRat 3 10,
    strict_entity_matching := true, semantic_opposite_filtering := true,
    domain_exact_match := true, max_time_diff_hours := 24, matches_out := ms }

/-! Record construction (`load_and_preprocess`, Kalshi side, lines 32-71). -/

/-- A raw Kalshi market dictionary; `none` models an absent key
(`m.get(key)` with no default present). -/
structure RawKalshi where
  title : Option String := none
  description : Option String := none
  endDate : Option String := none
  close_time : Option String := none
  conditionId : Option String := none
  bestBid : Option ℚ := none
  bestAsk : Option ℚ := none
deriving DecidableEq

/-- Model of `rapidfuzz.utils.default_process`: replace non-alphanumeric
characters by spaces, lowercase, strip. -/
def default_process (s : String) : String :=
  stripStr (String.mk (s.data.map fun c => if c.isAlphanum then c.toLower else ' '))

/-- Python `a or b` on optional strings (empty string is falsy). -/
def pyOrStr (a b : Option String) : Option String :=
  match a with
  | some s => if s = "" then b else some s
  | none => b

/-- One iteration of the Kalshi loop of `load_and_preprocess`.  `parse_iso`
abstracts the `datetime.fromisoformat` library call (returning `none` on a
parse failure, which the source swallows); `i` is the enumeration index.
A missing or empty/whitespace title makes the loop `continue`, dropping the
record (`none`); every other missing field is silently defaulted. -/
def load_kalshi_entry (parse_iso : String → Option ℚ) (i : ℕ) (m : RawKalshi) :
    Option Record :=
  let title := stripStr (m.title.getD "")
  if title = "" then none
  else
    let desc := stripStr (m.description.getD "")
    let text := stripStr (title ++ ". " ++ desc)
    let end_dt :=
      match pyOrStr m.endDate m.close_time with
      | some s => if s = "" then none else parse_iso (strReplace s "Z" "+00:00")
      | none => none
    some { idx := i, id := m.conditionId.getD "", title := title, text := text,
           text_norm := default_process text, end_dt := end_dt,
           numbers := extract_numbers_strict text,
           entities := extract_entities_strict text,
           domain := classify_domain_strict text,
           bid := m.bestBid, ask := m.bestAsk }

/-! Specification-side definitions, written from the specification's wording,
to be compared with the source-side definitions above. -/

/-- The composite ranking score of the deduplicator as worded by the
specification: `text_score + 30 * entity_overlap_ratio +
20 * number_overlap_ratio` (ordinary field operations). -/
def composite_score (m : MatchRow) : ℚ :=
  m.score + 30 * m.entity_overlap + 20 * m.number_overlap

/-- Specification wording of the greedy acceptance test: neither reference was
consumed by a previously accepted candidate. -/
def spec_accepts (acc : List MatchRow) (m : MatchRow) : Bool :=
  acc.all fun a => decide (a.kalshi_idx ≠ m.kalshi_idx) && decide (a.poly_idx ≠ m.poly_idx)

/-- Specification wording of the greedy walk: walk the sorted list, appending
a candidate exactly when `spec_accepts` holds against the accepted prefix. -/
def spec_greedy (acc : List MatchRow) : List MatchRow → List MatchRow
  | [] => acc
  | m :: rest =>
    if spec_accepts acc m then spec_greedy (acc ++ [m]) rest else spec_greedy acc rest

/-- The deduplicator as worded by the specification. -/
def dedup_spec (ms : List MatchRow) : List MatchRow := spec_greedy [] (sortDescByQuality ms)

/-- The ordered rule table of the domain classifier as worded by the
specification. -/
def domain_rules : List (String × List String) :=
  [("politics", politics_kws), ("macro", macro_kws), ("crypto", crypto_kws),
   ("finance", finance_kws), ("tech", tech_kws), ("sports", sports_kws),
   ("entertainment", entertainment_kws)]

/-- First-match evaluation of an ordered rule table, defaulting to `other`. -/
def firstRuleTag : List (String × List String) → List Char → String
  | [], _ => "other"
  | r :: rs, t => if ruleMatch r.2 t then r.1 else firstRuleTag rs t

/-- The domain classifier as worded by the specification. -/
def classify_domain_spec (text : String) : String :=
  firstRuleTag domain_rules (lowerStr text).data

/-- Convenience constructor for concrete records in witnesses. -/
def sampleRec (i : ℕ) (ents nums : List String) (dom text : String) (ed : Option ℚ) :
    Record :=
  { idx := i, id := toString i, title := text, text := text, text_norm := text,
    end_dt := ed, numbers := nums.toFinset, entities := ents.toFinset, domain := dom }

/-- Convenience constructor for concrete match rows in witnesses. -/
def sampleRow (ki pi : ℕ) (kid pid : String) (s eo no : ℚ) : MatchRow :=
  { kalshi_idx := ki, poly_idx := pi, kalshi_id := kid, poly_id := pid,
    kalshi_title := "", poly_title := "", score := s, domain := "macro",
    time_diff_hours := none, entity_overlap := eo, number_overlap := no,
    shared_entities := [], shared_numbers := [] }

/-! Bridging lemmas: the kernel-reducible helpers equal the ordinary operations. -/

theorem qAdd_eq_add (a b : ℚ) : qAdd a b = a + b := by
  have ha : ((a.den : ℚ)) ≠ 0 := by exact_mod_cast a.den_nz
  have hb : ((b.den : ℚ)) ≠ 0 := by exact_mod_cast b.den_nz
  unfold qAdd
  rw [Rat.mkRat_eq_div]
  push_cast
  conv_rhs => rw [← Rat.num_div_den a, ← Rat.num_div_den b]
  field_simp
  try ring

theorem qSub_eq_sub (a b : ℚ) : qSub a b = a - b := by
  have ha : ((a.den : ℚ)) ≠ 0 := by exact_mod_cast a.den_nz
  have hb : ((b.den : ℚ)) ≠ 0 := by exact_mod_cast b.den_nz
  unfold qSub
  rw [Rat.mkRat_eq_div]
  push_cast
  conv_rhs => rw [← Rat.num_div_den a, ← Rat.num_div_den b]
  field_simp
  try ring

theorem qMul_eq_mul (a b : ℚ) : qMul a b = a * b := by
  have ha : ((a.den : ℚ)) ≠ 0 := by exact_mod_cast a.den_nz
  have hb : ((b.den : ℚ)) ≠ 0 := by exact_mod_cast b.den_nz
  unfold qMul
  rw [Rat.mkRat_eq_div]
  push_cast
  conv_rhs => rw [← Rat.num_div_den a, ← Rat.num_div_den b]
  field_simp
  try ring

theorem qAbs_eq_abs (a : ℚ) : qAbs a = |a| := by
  unfold qAbs
  split
  · rw [abs_of_neg (by assumption), Rat.mkRat_eq_div]
    push_cast
    rw [neg_div, Rat.num_div_den]
  · rw [abs_of_nonneg (by linarith [not_lt.mp (by assumption)])]

theorem qMax_eq_max (a b : ℚ) : qMax a b = max a b := by
  unfold qMax
  split
  · exact (max_eq_right (by assumption)).symm
  · exact (max_eq_left (by linarith [not_le.mp (by assumption)])).symm

theorem qDivN_eq_div (a : ℚ) (n : ℕ) (h : n ≠ 0) : qDivN a n = a / n := by
  have ha : ((a.den : ℚ)) ≠ 0 := by exact_mod_cast a.den_nz
  have hn : ((n : ℚ)) ≠ 0 := by exact_mod_cast h
  unfold qDivN
  rw [Rat.mkRat_eq_div]
  push_cast
  conv_rhs => rw [← Rat.num_div_den a]
  rw [div_div]

theorem length_dropWhile_le {α : Type} (p : α → Bool) (l : List α) :
    (l.dropWhile p).length ≤ l.length := by
  induction l with
  | nil => simp
  | cons c t ih =>
    by_cases h : p c
    · simp only [List.dropWhile_cons, h, if_true, List.length_cons]
      omega
    · simp [List.dropWhile_cons, h]

theorem quality_score_eq (m : MatchRow) :
    quality_score m = m.score + m.entity_overlap * 30 + m.number_overlap * 20 := by
  simp [quality_score, qAdd_eq_add, qMul_eq_mul]

/-! Supporting lemmas about the deduplicator. -/

theorem insertDesc_perm (m : MatchRow) (l : List MatchRow) :
    List.Perm (insertDescByQuality m l) (m :: l) := by
  induction l with
  | nil => exact List.Perm.refl _
  | cons x xs ih =>
    unfold insertDescByQuality
    split
    · exact ((ih.cons x).trans (List.Perm.swap m x xs))
    · exact List.Perm.refl _

theorem sortDesc_perm (ms : List MatchRow) : List.Perm (sortDescByQuality ms) ms := by
  induction ms with
  | nil => exact List.Perm.refl _
  | cons m rest ih =>
    unfold sortDescByQuality
    exact (insertDesc_perm m (sortDescByQuality rest)).trans (ih.cons m)

theorem insertDesc_sorted (m : MatchRow) (l : List MatchRow)
    (h : l.Pairwise (fun a b => quality_score b ≤ quality_score a)) :
    (insertDescByQuality m l).Pairwise (fun a b => quality_score b ≤ quality_score a) := by
  induction l with
  | nil => simp [insertDescByQuality]
  | cons x xs ih =>
    rw [List.pairwise_cons] at h
    unfold insertDescByQuality
    split
    · rename_i hlt
      rw [List.pairwise_cons]
      constructor
      · intro y hy
        rcases List.mem_cons.mp ((insertDesc_perm m xs).mem_iff.mp hy) with hym | hyxs
        · subst hym; exact le_of_lt hlt
        · exact h.1 y hyxs
      · exact ih h.2
    · rename_i hge
      rw [List.pairwise_cons]
      refine ⟨fun y hy => ?_, List.pairwise_cons.mpr h⟩
      rcases List.mem_cons.mp hy with hyx | hyxs
      · subst hyx; exact le_of_not_lt hge
      · exact le_trans (h.1 y hyxs) (le_of_not_lt hge)

theorem sortDesc_sorted (ms : List MatchRow) :
    (sortDescByQuality ms).Pairwise (fun a b => quality_score b ≤ quality_score a) := by
  induction ms with
  | nil => simp [sortDescByQuality]
  | cons m rest ih => exact insertDesc_sorted m _ ih

theorem insertDesc_filter (m : MatchRow) (l : List MatchRow) (c : ℚ) :
    (insertDescByQuality m l).filter (fun x => decide (quality_score x = c)) =
      if quality_score m = c then m :: l.filter (fun x => decide (quality_score x = c))
      else l.filter (fun x => decide (quality_score x = c)) := by
  induction l with
  | nil => by_cases hm : quality_score m = c <;> simp [insertDescByQuality, hm]
  | cons x xs ih =>
    unfold insertDescByQuality
    split
    · rename_i hlt
      by_cases hm : quality_score m = c
      · have hx : ¬ quality_score x = c := by
          intro hx; rw [hx, ← hm] at hlt; exact lt_irrefl _ hlt
        simp [List.filter_cons, hx, hm, ih]
      · by_cases hx : quality_score x = c <;> simp [List.filter_cons, hx, hm, ih]
    · by_cases hm : quality_score m = c <;>
        by_cases hx : quality_score x = c <;> simp [List.filter_cons, hm, hx]

theorem sortDesc_stable (ms : List MatchRow) (c : ℚ) :
    (sortDescByQuality ms).filter (fun x => decide (quality_score x = c)) =
      ms.filter (fun x => decide (quality_score x = c)) := by
  induction ms with
  | nil => rfl
  | cons m rest ih =>
    unfold sortDescByQuality
    rw [insertDesc_filter, ih]
    by_cases hm : quality_score m = c <;> simp [List.filter_cons, hm]

theorem dedupGo_sublist (l : List MatchRow) : ∀ (uk up : Finset ℕ),
    (dedupGo l uk up).Sublist l := by
  induction l with
  | nil => intro uk up; simp [dedupGo]
  | cons m rest ih =>
    intro uk up
    unfold dedupGo
    split
    · exact (ih _ _).cons₂ m
    · exact (ih _ _).cons m

theorem dedupGo_nodup (l : List MatchRow) : ∀ (uk up : Finset ℕ),
    (((dedupGo l uk up).map MatchRow.kalshi_idx).Nodup ∧
      ∀ x ∈ (dedupGo l uk up).map MatchRow.kalshi_idx, x ∉ uk) ∧
    (((dedupGo l uk up).map MatchRow.poly_idx).Nodup ∧
      ∀ x ∈ (dedupGo l uk up).map MatchRow.poly_idx, x ∉ up) := by
  induction l with
  | nil => intro uk up; simp [dedupGo]
  | cons m rest ih =>
    intro uk up
    unfold dedupGo
    split
    · rename_i hnew
      obtain ⟨⟨ihk1, ihk2⟩, ⟨ihp1, ihp2⟩⟩ := ih (insert m.kalshi_idx uk) (insert m.poly_idx up)
      refine ⟨⟨?_, ?_⟩, ⟨?_, ?_⟩⟩
      · rw [List.map_cons, List.nodup_cons]
        exact ⟨fun hmem => ihk2 _ hmem (Finset.mem_insert_self _ _), ihk1⟩
      · intro x hx hxuk
        simp only [List.map_cons, List.mem_cons] at hx
        rcases hx with hxm | hxrest
        · exact hnew.1 (hxm ▸ hxuk)
        · exact ihk2 x hxrest (Finset.mem_insert_of_mem hxuk)
      · rw [List.map_cons, List.nodup_cons]
        exact ⟨fun hmem => ihp2 _ hmem (Finset.mem_insert_self _ _), ihp1⟩
      · intro x hx hxup
        simp only [List.map_cons, List.mem_cons] at hx
        rcases hx with hxm | hxrest
        · exact hnew.2 (hxm ▸ hxup)
        · exact ihp2 x hxrest (Finset.mem_insert_of_mem hxup)
    · exact ih uk up

theorem nodup_map_transfer {α β γ : Type} (f : α → β) (g : α → γ) (l : List α)
    (h : ∀ a ∈ l, ∀ b ∈ l, g a = g b → f a = f b) (hf : (l.map f).Nodup) :
    (l.map g).Nodup := by
  induction l with
  | nil => simp
  | cons a t ih =>
    rw [List.map_cons, List.nodup_cons] at hf ⊢
    constructor
    · intro hmem
      rcases List.mem_map.mp hmem with ⟨b, hbt, hgb⟩
      exact hf.1 (List.mem_map.mpr
        ⟨b, hbt, h b (List.mem_cons_of_mem a hbt) a (List.mem_cons_self a t) hgb⟩)
    · exact ih (fun x hx y hy => h x (List.mem_cons_of_mem a hx) y (List.mem_cons_of_mem a hy)) hf.2

theorem spec_greedy_dedupGo (l : List MatchRow) : ∀ (acc : List MatchRow) (uk up : Finset ℕ),
    (∀ x, x ∈ uk ↔ ∃ a ∈ acc, a.kalshi_idx = x) →
    (∀ x, x ∈ up ↔ ∃ a ∈ acc, a.poly_idx = x) →
    spec_greedy acc l = acc ++ dedupGo l uk up := by
  induction l with
  | nil => intro acc uk up hk hp; simp [spec_greedy, dedupGo]
  | cons m rest ih =>
    intro acc uk up hk hp
    have haccept : spec_accepts acc m = true ↔ (m.kalshi_idx ∉ uk ∧ m.poly_idx ∉ up) := by
      unfold spec_accepts
      rw [List.all_eq_true]
      constructor
      · intro hall
        constructor
        · intro hin
          rcases (hk _).mp hin with ⟨a, ha, hax⟩
          have := hall a ha
          simp only [Bool.and_eq_true, decide_eq_true_eq] at this
          exact this.1 hax
        · intro hin
          rcases (hp _).mp hin with ⟨a, ha, hax⟩
          have := hall a ha
          simp only [Bool.and_eq_true, decide_eq_true_eq] at this
          exact this.2 hax
      · intro hno a ha
        simp only [Bool.and_eq_true, decide_eq_true_eq]
        exact ⟨fun hax => hno.1 ((hk _).mpr ⟨a, ha, hax⟩),
               fun hax => hno.2 ((hp _).mpr ⟨a, ha, hax⟩)⟩
    unfold spec_greedy dedupGo
    by_cases hc : m.kalshi_idx ∉ uk ∧ m.poly_idx ∉ up
    · rw [if_pos (haccept.mpr hc), if_pos hc]
      rw [ih (acc ++ [m]) (insert m.kalshi_idx uk) (insert m.poly_idx up) ?_ ?_]
      · simp
      · intro x
        rw [Finset.mem_insert, hk x]
        constructor
        · rintro (hxm | ⟨a, ha, hax⟩)
          · exact ⟨m, by simp, hxm.symm⟩
          · exact ⟨a, by simp [ha], hax⟩
        · rintro ⟨a, ha, hax⟩
          rcases List.mem_append.mp ha with ha' | ha'
          · exact Or.inr ⟨a, ha', hax⟩
          · simp only [List.mem_singleton] at ha'
            exact Or.inl (ha' ▸ hax.symm)
      · intro x
        rw [Finset.mem_insert, hp x]
        constructor
        · rintro (hxm | ⟨a, ha, hax⟩)
          · exact ⟨m, by simp, hxm.symm⟩
          · exact ⟨a, by simp [ha], hax⟩
        · rintro ⟨a, ha, hax⟩
          rcases List.mem_append.mp ha with ha' | ha'
          · exact Or.inr ⟨a, ha', hax⟩
          · simp only [List.mem_singleton] at ha'
            exact Or.inl (ha' ▸ hax.symm)
    · rw [if_neg (fun hacc => hc (haccept.mp hacc)), if_neg hc]
      exact ih acc uk up hk hp

/-! The quality gate short-circuits: once `semantic_similarity_check` fails,
no later rule can save the candidate. -/

theorem gate_false_of_semantic_false (k p : Record) (score : ℚ)
    (h : semantic_similarity_check k.text p.text = false) :
    is_high_quality_match k p score = false := by
  unfold is_high_quality_match
  split
  · rfl
  · split
    · rfl
    · split
      · rfl
      · simp [h]

theorem processPair_none_of_gate_false (k p : Record) (score maxTd : ℚ)
    (h : is_high_quality_match k p score = false) :
    processPair k p score maxTd = none := by
  unfold processPair
  rw [if_pos h]

/-- C3: if one record's raw text contains a word of the fixed antonym table
and the other record's raw text contains its paired opposite (in either
orientation), the quality gate rejects the pair for every score, and the pair
is never emitted as a match. -/
theorem claim_C3 (k p : Record) (score : ℚ) (w1 w2 : String)
    (hmem : (w1, w2) ∈ opposite_pairs)
    (hocc : (strContains (lowerStr k.text) w1 = true ∧
             strContains (lowerStr p.text) w2 = true) ∨
            (strContains (lowerStr k.text) w2 = true ∧
             strContains (lowerStr p.text) w1 = true)) :
    is_high_quality_match k p score = false ∧
    ∀ maxTd, processPair k p score maxTd = none := by
  have hany : (opposite_pairs.any fun w =>
      (strContains (lowerStr k.text) w.1 && strContains (lowerStr p.text) w.2) ||
      (strContains (lowerStr k.text) w.2 && strContains (lowerStr p.text) w.1)) = true := by
    rw [List.any_eq_true]
    refine ⟨(w1, w2), hmem, ?_⟩
    rcases hocc with ⟨h1, h2⟩ | ⟨h1, h2⟩ <;> simp [h1, h2]
  have hsem : semantic_similarity_check k.text p.text = false := by
    unfold semantic_similarity_check
    rw [if_pos hany]
  exact ⟨gate_false_of_semantic_false k p score hsem,
         fun maxTd => processPair_none_of_gate_false k p score maxTd
           (gate_false_of_semantic_false k p score hsem)⟩

theorem claim_C3_witness :
    is_high_quality_match
        (sampleRec 0 ["fed"] [] "macro" "fed rate hike in 2024" none)
        (sampleRec 1 ["fed"] [] "macro" "fed rate cut in 2024" none) 99 = false ∧
    processPair
        (sampleRec 0 ["fed"] [] "macro" "fed rate hike in 2024" none)
        (sampleRec 1 ["fed"] [] "macro" "fed rate cut in 2024" none) 99 24 = none :=
  ⟨(claim_C3 _ _ 99 "cut" "hike" (by decide) (Or.inr ⟨by decide, by decide⟩)).1,
   (claim_C3 _ _ 99 "cut" "hike" (by decide) (Or.inr ⟨by decide, by decide⟩)).2 24⟩

/-- C5: if both raw texts carry basis-point quantities (per the pattern
`(\d+)\s*bps?` on the lowered texts) and the digit-string sets are disjoint,
the quality gate rejects the pair even at scores of 95 and above: the
rejection sits inside `semantic_similarity_check`, which has no high-score
escape hatch. -/
theorem claim_C5 (k p : Record) (score : ℚ) (_hscore : 95 ≤ score)
    (hk : findBpsGroups (lowerStr k.text) ≠ [])
    (hp : findBpsGroups (lowerStr p.text) ≠ [])
    (hdisj : (findBpsGroups (lowerStr k.text)).toFinset ∩
             (findBpsGroups (lowerStr p.text)).toFinset = ∅) :
    is_high_quality_match k p score = false ∧
    ∀ maxTd, processPair k p score maxTd = none := by
  have hsem : semantic_similarity_check k.text p.text = false := by
    unfold semantic_similarity_check
    split
    · rfl
    · rw [if_pos ⟨hk, hp, hdisj⟩]
  exact ⟨gate_false_of_semantic_false k p score hsem,
         fun maxTd => processPair_none_of_gate_false k p score maxTd
           (gate_false_of_semantic_false k p score hsem)⟩

theorem claim_C5_witness :
    (95 : ℚ) ≤ 96 ∧
    is_high_quality_match
        (sampleRec 0 ["fed"] ["25bps"] "macro" "fed moves 25bps" none)
        (sampleRec 1 ["fed"] ["50bps"] "macro" "fed moves 50bps" none) 96 = false :=
  ⟨by decide,
   (claim_C5 (sampleRec 0 ["fed"] ["25bps"] "macro" "fed moves 25bps" none)
      (sampleRec 1 ["fed"] ["50bps"] "macro" "fed moves 50bps" none) 96
      (by decide) (by decide) (by decide) (by decide)).1⟩

/-- C4: the numeric-closeness rule of the quality gate.  When both sides have
numeric tokens and the token sets do not intersect verbatim, the rule accepts
exactly when some re-parsed pair is close or the score is at least 95; the
close-pair search ranges over the values of basis-point and percentage shaped
tokens only (`parseNumToken` returns `none` on every other shape, so dollar
amounts and plain integers are never re-parsed), with the bound
`|left - right| <= max (50, left * 1/5)`; the rule is vacuously satisfied when
either side has no numeric tokens; and the whole gate implies the rule. -/
theorem claim_C4 (k p : Record) (score : ℚ) :
    (k.numbers ≠ ∅ → p.numbers ≠ ∅ → k.numbers ∩ p.numbers = ∅ →
      (numeric_closeness_gate k p score = true ↔
        (numbers_close k.numbers p.numbers = true ∨ 95 ≤ score))) ∧
    (numbers_close k.numbers p.numbers = true ↔
      ∃ ta ∈ k.numbers, ∃ tb ∈ p.numbers, ∃ a b : ℚ,
        parseNumToken ta = some a ∧ parseNumToken tb = some b ∧
        |a - b| ≤ max 50 (a * (1 / 5))) ∧
    ((k.numbers = ∅ ∨ p.numbers = ∅) → numeric_closeness_gate k p score = true) ∧
    (is_high_quality_match k p score = true → numeric_closeness_gate k p score = true) ∧
    (∀ num : String, strContains num "bps" = false → strContains num "%" = false →
      parseNumToken num = none) := by
  refine ⟨?_, ?_, ?_, ?_, ?_⟩
  · intro h1 h2 h3
    unfold numeric_closeness_gate
    rw [if_pos ⟨h1, h2⟩, if_pos h3]
    by_cases hc : numbers_close k.numbers p.numbers = false ∧ score < 95
    · rw [if_pos hc]
      constructor
      · intro hft; exact absurd hft (by simp)
      · rintro (hcl | hge)
        · rw [hc.1] at hcl; exact absurd hcl (by simp)
        · exact absurd hge (not_le.mpr hc.2)
    · rw [if_neg hc]
      refine ⟨fun _ => ?_, fun _ => rfl⟩
      rcases Decidable.not_and_iff_or_not.mp hc with hcl | hge
      · exact Or.inl (Bool.not_eq_false _ |>.mp hcl)
      · exact Or.inr (not_lt.mp hge)
  · have h15 : mkRat 1 5 = (1 / 5 : ℚ) := by
      rw [Rat.mkRat_eq_div]; norm_num
    have hform : ∀ a b : ℚ,
        (qAbs (qSub a b) ≤ qMax 50 (qMul a (mkRat 1 5))) =
          (|a - b| ≤ max 50 (a * (1 / 5))) := by
      intro a b
      rw [qAbs_eq_abs, qSub_eq_sub, qMax_eq_max, qMul_eq_mul, h15]
    have hct : ∀ oa ob : Option ℚ, (closeTest oa ob = true) ↔
        (∃ a b : ℚ, oa = some a ∧ ob = some b ∧ |a - b| ≤ max 50 (a * (1 / 5))) := by
      intro oa ob
      cases oa <;> cases ob <;> simp [closeTest, hform]
    simp only [numbers_close, decide_eq_true_eq, hct]
  · intro h
    unfold numeric_closeness_gate
    rw [if_neg]
    rcases h with h | h <;> simp [h]
  · intro h
    unfold is_high_quality_match at h
    split at h
    · simp at h
    · split at h
      · simp at h
      · split at h
        · simp at h
        · split at h
          · simp at h
          · split at h
            · split at h
              · simp at h
              · exact h
            · split at h
              · split at h
                · simp at h
                · exact h
              · split at h
                · split at h
                  · simp at h
                  · exact h
                · exact h
  · intro num h1 h2
    unfold parseNumToken
    rw [if_neg (by simp [h1]), if_neg (by simp [h2])]

theorem claim_C4_witness :
    numeric_closeness_gate
        (sampleRec 0 ["fed"] ["100bps"] "macro" "fed a" none)
        (sampleRec 1 ["fed"] ["130bps"] "macro" "fed b" none) 90 = true ∧
    parseNumToken "$2.5m" = none ∧ parseNumToken "2024" = none :=
  ⟨((claim_C4 (sampleRec 0 ["fed"] ["100bps"] "macro" "fed a" none)
        (sampleRec 1 ["fed"] ["130bps"] "macro" "fed b" none) 90).1
      (by decide) (by decide) (by decide)).mpr (Or.inl (by decide)),
   (claim_C4 (sampleRec 0 ["fed"] ["100bps"] "macro" "fed a" none)
        (sampleRec 1 ["fed"] ["130bps"] "macro" "fed b" none) 90).2.2.2.2
     "$2.5m" (by decide) (by decide),
   (claim_C4 (sampleRec 0 ["fed"] ["100bps"] "macro" "fed a" none)
        (sampleRec 1 ["fed"] ["130bps"] "macro" "fed b" none) 90).2.2.2.2
     "2024" (by decide) (by decide)⟩

/-- C1: the deduplicated match set is globally injective on both sides: no
Kalshi index and no Polymarket index occurs twice, and — provided the
per-catalog identifiers determine the indices, which is the stated input
invariant (`source_id` unique within its catalog) — no `kalshi_id` and no
`poly_id` occurs twice either. -/
theorem claim_C1 (ms : List MatchRow)
    (hid : ∀ m1 ∈ ms, ∀ m2 ∈ ms,
      (m1.kalshi_id = m2.kalshi_id → m1.kalshi_idx = m2.kalshi_idx) ∧
      (m1.poly_id = m2.poly_id → m1.poly_idx = m2.poly_idx)) :
    ((deduplicate_matches ms).map MatchRow.kalshi_idx).Nodup ∧
    ((deduplicate_matches ms).map MatchRow.poly_idx).Nodup ∧
    ((deduplicate_matches ms).map MatchRow.kalshi_id).Nodup ∧
    ((deduplicate_matches ms).map MatchRow.poly_id).Nodup := by
  have hk := (dedupGo_nodup (sortDescByQuality ms) ∅ ∅).1.1
  have hp := (dedupGo_nodup (sortDescByQuality ms) ∅ ∅).2.1
  have hsub : ∀ x ∈ deduplicate_matches ms, x ∈ ms := by
    intro x hx
    exact (sortDesc_perm ms).mem_iff.mp ((dedupGo_sublist _ ∅ ∅).subset hx)
  unfold deduplicate_matches at hsub ⊢
  refine ⟨hk, hp, ?_, ?_⟩
  · exact nodup_map_transfer MatchRow.kalshi_idx MatchRow.kalshi_id _
      (fun a ha b hb hab => (hid a (hsub a ha) b (hsub b hb)).1 hab) hk
  · exact nodup_map_transfer MatchRow.poly_idx MatchRow.poly_id _
      (fun a ha b hb hab => (hid a (hsub a ha) b (hsub b hb)).2 hab) hp

theorem claim_C1_witness :
    ((deduplicate_matches
        [sampleRow 0 0 "a" "x" 85 0 0, sampleRow 1 0 "b" "x" 90 0 0,
         sampleRow 2 1 "c" "y" 99 0 0]).map MatchRow.kalshi_idx).Nodup ∧
    ((deduplicate_matches
        [sampleRow 0 0 "a" "x" 85 0 0, sampleRow 1 0 "b" "x" 90 0 0,
         sampleRow 2 1 "c" "y" 99 0 0]).map MatchRow.poly_idx).Nodup ∧
    ((deduplicate_matches
        [sampleRow 0 0 "a" "x" 85 0 0, sampleRow 1 0 "b" "x" 90 0 0,
         sampleRow 2 1 "c" "y" 99 0 0]).map MatchRow.kalshi_id).Nodup ∧
    ((deduplicate_matches
        [sampleRow 0 0 "a" "x" 85 0 0, sampleRow 1 0 "b" "x" 90 0 0,
         sampleRow 2 1 "c" "y" 99 0 0]).map MatchRow.poly_id).Nodup :=
  claim_C1 _ (by decide)

/-- C2: the deduplicator equals its specification: composite score
`text_score + 30 * entity_overlap + 20 * number_overlap`, stable descending
sort (a permutation of the input, sorted by descending composite score, in
which candidates of any given composite score keep their original relative
order), then the greedy walk accepting a candidate exactly when no previously
accepted candidate shares either index. -/
theorem claim_C2 (ms : List MatchRow) :
    deduplicate_matches ms = dedup_spec ms ∧
    (∀ m, quality_score m = composite_score m) ∧
    List.Perm (sortDescByQuality ms) ms ∧
    (sortDescByQuality ms).Pairwise (fun a b => composite_score b ≤ composite_score a) ∧
    (∀ c : ℚ, (sortDescByQuality ms).filter (fun m => decide (composite_score m = c)) =
          ms.filter (fun m => decide (composite_score m = c))) := by
  have hqc : ∀ m, quality_score m = composite_score m := by
    intro m
    rw [quality_score_eq]
    unfold composite_score
    ring
  refine ⟨?_, hqc, sortDesc_perm ms, ?_, ?_⟩
  · unfold deduplicate_matches dedup_spec
    rw [spec_greedy_dedupGo (sortDescByQuality ms) [] ∅ ∅ (by simp) (by simp)]
    simp
  · exact (sortDesc_sorted ms).imp (fun hab => by rw [← hqc, ← hqc]; exact hab)
  · intro c
    have h := sortDesc_stable ms c
    simpa only [hqc] using h

/-- C9: the engine is deterministic up to the wall-clock `generated_at`
timestamp: two runs over the same pooled candidate list produce output
documents that agree on the match sequence, the match count and every
criteria field; only `generated_at` can differ. -/
theorem claim_C9 (ms : List MatchRow) (t1 t2 : String) :
    (save_matches t1 (deduplicate_matches ms)).matches_out =
      (save_matches t2 (deduplicate_matches ms)).matches_out ∧
    (save_matches t1 (deduplicate_matches ms)).total_matches =
      (save_matches t2 (deduplicate_matches ms)).total_matches ∧
    (save_matches t1 (deduplicate_matches ms)).min_text_similarity =
      (save_matches t2 (deduplicate_matches ms)).min_text_similarity ∧
    (save_matches t1 (deduplicate_matches ms)).min_entity_overlap_ratio =
      (save_matches t2 (deduplicate_matches ms)).min_entity_overlap_ratio ∧
    (save_matches t1 (deduplicate_matches ms)).strict_entity_matching =
      (save_matches t2 (deduplicate_matches ms)).strict_entity_matching ∧
    (save_matches t1 (deduplicate_matches ms)).semantic_opposite_filtering =
      (save_matches t2 (deduplicate_matches ms)).semantic_opposite_filtering ∧
    (save_matches t1 (deduplicate_matches ms)).domain_exact_match =
      (save_matches t2 (deduplicate_matches ms)).domain_exact_match ∧
    (save_matches t1 (deduplicate_matches ms)).max_time_diff_hours =
      (save_matches t2 (deduplicate_matches ms)).max_time_diff_hours :=
  ⟨rfl, rfl, rfl, rfl, rfl, rfl, rfl, rfl⟩

/-- C7: number extraction on `a $2.5m grant at 25bps over 2024` yields exactly
the tokens `2024`, `$2.5m` (dollar prefix and suffix reconstructed) and
`25bps` (reconstructed shape); the bare digit runs of value below 10 (the `2`
captured out of `2.5`) produce no token. -/
theorem claim_C7 :
    extract_numbers_strict "a $2.5m grant at 25bps over 2024" =
      ({"2024", "$2.5m", "25bps"} : Finset String) := by decide

/-- C8: the domain classifier evaluates its seven keyword rules in the fixed
order politics, macro, crypto, finance, tech, sports, entertainment, returns
the tag of the first matching rule and `other` when none matches (first-match
reference semantics `classify_domain_spec`); in particular a text matching
both the politics rule and the crypto rule is tagged `politics`. -/
theorem claim_C8 :
    (∀ text, classify_domain_strict text = classify_domain_spec text) ∧
    classify_domain_strict "Will the election pump bitcoin?" = "politics" ∧
    ruleMatch politics_kws (lowerStr "Will the election pump bitcoin?").data = true ∧
    ruleMatch crypto_kws (lowerStr "Will the election pump bitcoin?").data = true := by
  refine ⟨?_, by decide, by decide, by decide⟩
  intro text
  simp only [classify_domain_strict, classify_domain_spec, domain_rules, firstRuleTag]

/-! Supporting lemmas for the emitted time difference. -/

theorem qFloorZ_nonneg (q : ℚ) (h : 0 ≤ q) : 0 ≤ qFloorZ q := by
  unfold qFloorZ
  exact Int.fdiv_nonneg (Rat.num_nonneg.mpr h) (Int.ofNat_nonneg q.den)

theorem roundHalfEven_nonneg (q : ℚ) (h : 0 ≤ q) : 0 ≤ roundHalfEven q := by
  unfold roundHalfEven
  have hf := qFloorZ_nonneg q h
  split
  · exact hf
  · split
    · omega
    · split <;> omega

theorem qMulN_nonneg (q : ℚ) (n : ℕ) (h : 0 ≤ q) : 0 ≤ qMulN q n := by
  unfold qMulN
  rw [Rat.mkRat_eq_div]
  apply div_nonneg
  · exact_mod_cast mul_nonneg (Rat.num_nonneg.mpr h) (Int.ofNat_nonneg n)
  · exact_mod_cast Nat.zero_le q.den

theorem pyRound_nonneg (nd : ℕ) (q : ℚ) (h : 0 ≤ q) : 0 ≤ pyRound nd q := by
  unfold pyRound
  rw [Rat.mkRat_eq_div]
  apply div_nonneg
  · exact_mod_cast roundHalfEven_nonneg _ (qMulN_nonneg q _ h)
  · positivity

/-- C6 (amended): for every emitted match, `time_diff_hours` is `None` exactly
when at least one side lacks a known end time OR both are known and equal (the
Python truthiness test `if time_diff` maps the difference `0.0` to `None`
too); when it carries a value, that value is the absolute end-time difference
in hours rounded to one decimal place (not the exact difference), it is
nonnegative, and the underlying exact difference is positive and within the
time window. -/
theorem claim_C6 (k p : Record) (score maxTd : ℚ) (m : MatchRow)
    (h : processPair k p score maxTd = some m) :
    (m.time_diff_hours = none ↔
      (k.end_dt = none ∨ p.end_dt = none ∨
        ∃ a b, k.end_dt = some a ∧ p.end_dt = some b ∧ |a - b| = 0)) ∧
    (∀ d, m.time_diff_hours = some d →
      0 ≤ d ∧ ∃ a b, k.end_dt = some a ∧ p.end_dt = some b ∧
        d = pyRound 1 (|a - b| / 3600) ∧ |a - b| / 3600 ≤ maxTd ∧ |a - b| ≠ 0) := by
  unfold processPair at h
  split at h
  · exact absurd h (by simp)
  · split at h
    · rename_i a b hka hpb
      split at h
      · exact absurd h (by simp)
      · rename_i hguard
        have hm : m = mkMatchRow k p score
            (if qDivN (qAbs (qSub a b)) 3600 = 0 then none
             else some (pyRound 1 (qDivN (qAbs (qSub a b)) 3600))) :=
          (Option.some.injEq _ _).mp h.symm
        have htd : qDivN (qAbs (qSub a b)) 3600 = |a - b| / 3600 := by
          rw [qDivN_eq_div _ _ (by norm_num), qAbs_eq_abs, qSub_eq_sub]
          norm_num
        have htdh : m.time_diff_hours =
            (if qDivN (qAbs (qSub a b)) 3600 = 0 then none
             else some (pyRound 1 (qDivN (qAbs (qSub a b)) 3600))) := by
          rw [hm]; rfl
        rw [htd] at htdh
        by_cases h0 : (|a - b| / 3600 : ℚ) = 0
        · rw [if_pos h0] at htdh
          constructor
          · rw [htdh]
            simp only [true_iff]
            refine Or.inr (Or.inr ⟨a, b, hka, hpb, ?_⟩)
            have : (|a - b| : ℚ) = 0 := by
              field_simp at h0
              rw [h0, abs_zero]
            exact this
          · intro d hd
            rw [htdh] at hd
            exact absurd hd (by simp)
        · rw [if_neg h0] at htdh
          have habs : (|a - b| : ℚ) ≠ 0 := by
            intro hz
            exact h0 (by rw [hz]; norm_num)
          constructor
          · rw [htdh]
            simp only [reduceCtorEq, false_iff]
            rintro (hk0 | hp0 | ⟨a', b', ha', hb', hab'⟩)
            · rw [hka] at hk0; exact absurd hk0 (by simp)
            · rw [hpb] at hp0; exact absurd hp0 (by simp)
            · rw [hka] at ha'
              rw [hpb] at hb'
              have ha2 : a = a' := by injection ha'
              have hb2 : b = b' := by injection hb'
              rw [← ha2, ← hb2] at hab'
              exact habs hab'
          · intro d hd
            rw [htdh] at hd
            have hd2 : d = pyRound 1 (|a - b| / 3600) := by
              injection hd.symm
            refine ⟨?_, a, b, hka, hpb, hd2, ?_, habs⟩
            · rw [hd2]
              exact pyRound_nonneg 1 _ (by positivity)
            · rw [← htd]
              exact le_of_not_lt hguard
    · rename_i hnotboth
      have hm : m = mkMatchRow k p score none := (Option.some.injEq _ _).mp h.symm
      have htdh : m.time_diff_hours = none := by rw [hm]; rfl
      constructor
      · rw [htdh]
        simp only [true_iff]
        cases hke : k.end_dt with
        | none => exact Or.inl rfl
        | some a =>
          cases hpe : p.end_dt with
          | none => exact Or.inr (Or.inl rfl)
          | some b => exact (hnotboth a b hke hpe).elim
      · intro d hd
        rw [htdh] at hd
        exact absurd hd (by simp)

theorem claim_C6_counterexample :
    (processPair (sampleRec 0 ["fed"] [] "macro" "fed decision" (some 0))
        (sampleRec 1 ["fed"] [] "macro" "fed decision" (some 0)) 90 24).map
      (fun m => m.time_diff_hours) = some none ∧
    (sampleRec 0 ["fed"] [] "macro" "fed decision" (some 0)).end_dt ≠ none ∧
    (sampleRec 1 ["fed"] [] "macro" "fed decision" (some 0)).end_dt ≠ none := by
  refine ⟨?_, by decide, by decide⟩
  rfl

theorem claim_C6_witness :
    processPair (sampleRec 0 ["fed"] [] "macro" "fed decision" (some 7200))
        (sampleRec 1 ["fed"] [] "macro" "fed decision" (some 0)) 90 24 =
      some (mkMatchRow (sampleRec 0 ["fed"] [] "macro" "fed decision" (some 7200))
        (sampleRec 1 ["fed"] [] "macro" "fed decision" (some 0)) 90 (some 2)) ∧
    (∀ d, (mkMatchRow (sampleRec 0 ["fed"] [] "macro" "fed decision" (some 7200))
        (sampleRec 1 ["fed"] [] "macro" "fed decision" (some 0)) 90
          (some 2)).time_diff_hours = some d →
      0 ≤ d ∧ ∃ a b,
        (sampleRec 0 ["fed"] [] "macro" "fed decision" (some 7200)).end_dt = some a ∧
        (sampleRec 1 ["fed"] [] "macro" "fed decision" (some 0)).end_dt = some b ∧
        d = pyRound 1 (|a - b| / 3600) ∧ |a - b| / 3600 ≤ 24 ∧ |a - b| ≠ 0) := by
  have h : processPair (sampleRec 0 ["fed"] [] "macro" "fed decision" (some 7200))
      (sampleRec 1 ["fed"] [] "macro" "fed decision" (some 0)) 90 24 =
      some (mkMatchRow (sampleRec 0 ["fed"] [] "macro" "fed decision" (some 7200))
        (sampleRec 1 ["fed"] [] "macro" "fed decision" (some 0)) 90 (some 2)) := by
    rfl
  exact ⟨h, (claim_C6 _ _ 90 24 _ h).2⟩

/-- C10 (amended): Record construction never rejects a raw record with an
error.  A missing title is handled exactly like a present-but-empty title
(the record is silently dropped), and other missing fields are silently
defaulted (`description`, `conditionId` default to the empty string) with
processing continuing. -/
theorem claim_C10 (parse_iso : String → Option ℚ) (i : ℕ) (m : RawKalshi) :
    (stripStr (m.title.getD "") = "" → load_kalshi_entry parse_iso i m = none) ∧
    load_kalshi_entry parse_iso i { m with title := none } =
      load_kalshi_entry parse_iso i { m with title := some "" } ∧
    load_kalshi_entry parse_iso i { m with description := none } =
      load_kalshi_entry parse_iso i { m with description := some "" } ∧
    load_kalshi_entry parse_iso i { m with conditionId := none } =
      load_kalshi_entry parse_iso i { m with conditionId := some "" } := by
  refine ⟨?_, rfl, rfl, rfl⟩
  intro h
  simp [load_kalshi_entry, h]

theorem claim_C10_counterexample :
    load_kalshi_entry (fun _ => none) 0
      { title := none, description := some "Fed decision pending" } = none ∧
    load_kalshi_entry (fun _ => none) 0
        { title := none, description := some "Fed decision pending" } =
      load_kalshi_entry (fun _ => none) 0
        { title := some "", description := some "Fed decision pending" } ∧
    (load_kalshi_entry (fun _ => none) 0 { title := some "Fed hike" }).isSome = true ∧
    (load_kalshi_entry (fun _ => none) 0 { title := some "Fed hike" }).map Record.id =
      some "" ∧
    load_kalshi_entry (fun _ => none) 0 { title := some "Fed hike" } =
      load_kalshi_entry (fun _ => none) 0
        { title := some "Fed hike", description := some "", conditionId := some "" } :=
  ⟨rfl, rfl, rfl, rfl, rfl⟩

theorem claim_C10_witness :
    load_kalshi_entry (fun _ => none) 3 { description := some "d" } = none ∧
    load_kalshi_entry (fun _ => none) 3
        { (({ description := some "d" } : RawKalshi)) with description := none } =
      load_kalshi_entry (fun _ => none) 3
        { (({ description := some "d" } : RawKalshi)) with description := some "" } :=
  ⟨(claim_C10 (fun _ => none) 3 { description := some "d" }).1 (by decide),
   (claim_C10 (fun _ => none) 3 { description := some "d" }).2.2.1⟩
